import Mathlib

/-!
# Verification of `string_stream.rs`

A shallow embedding of the streaming UTF-8 decoder and line reader from
`src/string_stream.rs`, together with theorems settling the specification
claims about them.

Modelling conventions:
* bytes are `Nat` values (`< 256` where a claim needs it; the `u8` source
  type guarantees it);
* the single-pass byte source (`Bytes<T>` with errors folded to `None` by
  `and_then(|x| x.ok())`) is a `List Nat`; a pull takes the head or fails;
* a Unicode scalar value (`char`) is its code point as a `Nat`;
* each stateful operation returns its result paired with the remaining
  byte list (the advanced source).
-/

namespace StringStream

/-- Mask table of `hi` (`const fn hi`): keeps the top `bits` bits of a byte.
The Rust function rejects a bit count outside `0..=8` as a contract
violation (it never happens in the decoder); the catch-all clause is
unreachable for the arguments used. -/
def himask : Nat → Nat
  | 0 => 0x00
  | 1 => 0x80
  | 2 => 0xC0
  | 3 => 0xE0
  | 4 => 0xF0
  | 5 => 0xF8
  | 6 => 0xFC
  | 7 => 0xFE
  | 8 => 0xFF
  | _ => 0

/-- Mask table of `lo` (`const fn lo`): keeps the low `bits` bits of a byte. -/
def lomask : Nat → Nat
  | 0 => 0x00
  | 1 => 0x01
  | 2 => 0x03
  | 3 => 0x07
  | 4 => 0x0F
  | 5 => 0x1F
  | 6 => 0x3F
  | 7 => 0x7F
  | 8 => 0xFF
  | _ => 0

/-- Rust `const fn hi(byte, bits)`: the byte with only its top `bits` bits kept. -/
def hi (byte bits : Nat) : Nat := byte &&& himask bits

/-- Rust `const fn lo(byte, bits)`: the byte with only its low `bits` bits kept. -/
def lo (byte bits : Nat) : Nat := byte &&& lomask bits

/-- Rust `const fn is_ascii`: the top bit is 0. -/
def is_ascii (byte : Nat) : Bool := hi byte 1 == 0

/-- Rust `const fn starts_with_10`: continuation byte pattern `10xxxxxx`. -/
def starts_with_10 (byte : Nat) : Bool := hi byte 2 == 0x80

/-- Rust `const fn is_two_bytes`: lead pattern `110xxxxx` plus one continuation. -/
def is_two_bytes (first second : Nat) : Bool :=
  hi first 3 == 0xC0 && starts_with_10 second

/-- Rust `const fn is_three_bytes`: lead pattern `1110xxxx` plus two continuations. -/
def is_three_bytes (first second third : Nat) : Bool :=
  hi first 4 == 0xE0 && starts_with_10 second && starts_with_10 third

/-- Rust `const fn is_four_bytes`: lead pattern `11110xxx` plus three continuations. -/
def is_four_bytes (first second third fourth : Nat) : Bool :=
  hi first 5 == 0xF0
    && starts_with_10 second
    && starts_with_10 third
    && starts_with_10 fourth

/-- A legal Unicode scalar value: not a surrogate and at most `0x10FFFF`.
This is the acceptance condition of Rust's `char::from_u32`. -/
def IsUnicodeScalar (c : Nat) : Prop := (c < 0xD800 ∨ 0xDFFF < c) ∧ c ≤ 0x10FFFF

instance (c : Nat) : Decidable (IsUnicodeScalar c) := by
  unfold IsUnicodeScalar; infer_instance

/-- Rust's `char::from_u32`: `some` exactly on legal Unicode scalar values. -/
def char_from_u32 (c : Nat) : Option Nat :=
  if IsUnicodeScalar c then some c else none

/-- The two-byte reassembly of `next`: `(first as u32) << 6 | second as u32`
applied to `lo(first, 5)` and `lo(second, 6)`. -/
def assemble2 (first second : Nat) : Nat :=
  lo first 5 <<< 6 ||| lo second 6

/-- The three-byte reassembly of `next`. -/
def assemble3 (first second third : Nat) : Nat :=
  lo first 4 <<< 12 ||| lo second 6 <<< 6 ||| lo third 6

/-- The four-byte reassembly of `next`. -/
def assemble4 (first second third fourth : Nat) : Nat :=
  lo first 3 <<< 18 ||| lo second 6 <<< 12 ||| lo third 6 <<< 6 ||| lo fourth 6

/-- Rust `<StringStream as Iterator>::next`: pull one to four bytes and decode one
scalar value. Returns the decoded scalar (or `none` on exhaustion, on a
pattern mismatch, or on `char::from_u32` rejection) together with the
remaining bytes of the source. Each `next_byte()?` is a head pull; a pull
from the empty list is the `?` early return with `None`. -/
def next (bs : List Nat) : Option Nat × List Nat :=
  match bs with
  | [] => (none, [])
  | first :: bs =>
    if is_ascii first then
      (char_from_u32 first, bs)
    else
      match bs with
      | [] => (none, [])
      | second :: bs =>
        if is_two_bytes first second then
          (char_from_u32 (assemble2 first second), bs)
        else
          match bs with
          | [] => (none, [])
          | third :: bs =>
            if is_three_bytes first second third then
              (char_from_u32 (assemble3 first second third), bs)
            else
              match bs with
              | [] => (none, [])
              | fourth :: bs =>
                if is_four_bytes first second third fourth then
                  (char_from_u32 (assemble4 first second third fourth), bs)
                else
                  (none, bs)

theorem next_snd_le (bs : List Nat) : (next bs).2.length ≤ bs.length := by
  rcases bs with _ | ⟨f, _ | ⟨s, _ | ⟨t, _ | ⟨u, rest⟩⟩⟩⟩ <;>
    simp only [next] <;> (try split_ifs) <;> simp <;> omega

theorem next_fst_some (bs : List Nat) (c : Nat) (h : (next bs).1 = some c) :
    (next bs).2.length < bs.length := by
  rcases bs with _ | ⟨f, _ | ⟨s, _ | ⟨t, _ | ⟨u, rest⟩⟩⟩⟩ <;>
    revert h <;> simp only [next] <;> (try split_ifs) <;> intro h <;> simp at h ⊢ <;> omega

/-- The `while let Some(ch) = self.next()` loop of `next_line`, carrying the
accumulated buffer `acc` (the `String` `buf`, as a list of scalar values).
Returns the buffer as it stands when the loop stops, together with the
remaining bytes. On `'\r'` the loop pulls one look-ahead scalar: a `'\n'`
ends the line (both consumed); anything else — including "no more output" —
appends the original `'\r'` and continues after the look-ahead pull. -/
def nextLineCore (bs acc : List Nat) : List Nat × List Nat :=
  match h1 : next bs with
  | (none, rest) => (acc, rest)
  | (some ch, rest) =>
    if ch = 13 then
      match h2 : next rest with
      | (some la, rest2) =>
        if la = 10 then (acc, rest2)
        else nextLineCore rest2 (acc ++ [13])
      | (none, rest2) => nextLineCore rest2 (acc ++ [13])
    else if ch = 10 then (acc, rest)
    else nextLineCore rest (acc ++ [ch])
termination_by bs.length
decreasing_by
  · have ha : rest.length < bs.length := by
      have h := next_fst_some bs ch (by rw [h1])
      rwa [h1] at h
    have hb : rest2.length < rest.length := by
      have h := next_fst_some rest la (by rw [h2])
      rwa [h2] at h
    omega
  · have ha : rest.length < bs.length := by
      have h := next_fst_some bs ch (by rw [h1])
      rwa [h1] at h
    have hb : rest2.length ≤ rest.length := by
      have h := next_snd_le rest
      rwa [h2] at h
    omega
  · have h := next_fst_some bs ch (by rw [h1])
    rwa [h1] at h

theorem nextLineCore_none (bs acc rest : List Nat) (h : next bs = (none, rest)) :
    nextLineCore bs acc = (acc, rest) := by
  rw [nextLineCore.eq_def, h]

theorem nextLineCore_lf (bs acc rest : List Nat) (h : next bs = (some 10, rest)) :
    nextLineCore bs acc = (acc, rest) := by
  rw [nextLineCore.eq_def, h]
  simp

theorem nextLineCore_cr_lf (bs acc rest rest2 : List Nat)
    (h : next bs = (some 13, rest)) (h2 : next rest = (some 10, rest2)) :
    nextLineCore bs acc = (acc, rest2) := by
  rw [nextLineCore.eq_def, h]
  simp only [if_pos rfl]
  rw [h2]
  simp

theorem nextLineCore_cr_other (bs acc rest : List Nat) (la : Option Nat) (rest2 : List Nat)
    (h : next bs = (some 13, rest)) (h2 : next rest = (la, rest2)) (hla : la ≠ some 10) :
    nextLineCore bs acc = nextLineCore rest2 (acc ++ [13]) := by
  rw [nextLineCore.eq_def, h]
  simp only [if_pos rfl]
  rw [h2]
  rcases la with _ | la
  · rfl
  · have : la ≠ 10 := fun hl => hla (by rw [hl])
    simp [this]

theorem nextLineCore_char (bs acc : List Nat) (ch : Nat) (rest : List Nat)
    (h : next bs = (some ch, rest)) (h13 : ch ≠ 13) (h10 : ch ≠ 10) :
    nextLineCore bs acc = nextLineCore rest (acc ++ [ch]) := by
  rw [nextLineCore.eq_def, h]
  simp [h13, h10]

/-- Fuel-indexed evaluator for the `next_line` loop: identical to
`nextLineCore` except that the recursion depth is bounded by `fuel`.
`nextLineCore_eq_fuel` shows any `fuel > bs.length` reproduces the loop. -/
def nextLineCoreF : Nat → List Nat → List Nat → List Nat × List Nat
  | 0, bs, acc => (acc, bs)
  | fuel + 1, bs, acc =>
    match next bs with
    | (none, rest) => (acc, rest)
    | (some ch, rest) =>
      if ch = 13 then
        match next rest with
        | (some la, rest2) =>
          if la = 10 then (acc, rest2)
          else nextLineCoreF fuel rest2 (acc ++ [13])
        | (none, rest2) => nextLineCoreF fuel rest2 (acc ++ [13])
      else if ch = 10 then (acc, rest)
      else nextLineCoreF fuel rest (acc ++ [ch])

theorem nextLineCore_eq_fuel (fuel : Nat) (bs acc : List Nat) (h : bs.length < fuel) :
    nextLineCore bs acc = nextLineCoreF fuel bs acc := by
  induction fuel generalizing bs acc with
  | zero => omega
  | succ fuel ih =>
    rcases hn : next bs with ⟨o, rest⟩
    have hrle : rest.length ≤ bs.length := by
      have := next_snd_le bs; rwa [hn] at this
    rcases o with _ | ch
    · rw [nextLineCore_none bs acc rest hn]
      simp [nextLineCoreF, hn]
    have hrlt : rest.length < bs.length := by
      have := next_fst_some bs ch (by rw [hn]); rwa [hn] at this
    by_cases h13 : ch = 13
    · subst h13
      rcases hn2 : next rest with ⟨o2, rest2⟩
      have hr2le : rest2.length ≤ rest.length := by
        have := next_snd_le rest; rwa [hn2] at this
      by_cases hla : o2 = some 10
      · subst hla
        rw [nextLineCore_cr_lf bs acc rest rest2 hn hn2]
        simp [nextLineCoreF, hn, hn2]
      · rw [nextLineCore_cr_other bs acc rest o2 rest2 hn hn2 hla]
        rw [ih rest2 (acc ++ [13]) (by omega)]
        rcases o2 with _ | la
        · simp [nextLineCoreF, hn, hn2]
        · have : la ≠ 10 := fun hl => hla (by rw [hl])
          simp [nextLineCoreF, hn, hn2, this]
    · by_cases h10 : ch = 10
      · subst h10
        rw [nextLineCore_lf bs acc rest hn]
        simp [nextLineCoreF, hn]
      · rw [nextLineCore_char bs acc ch rest hn h13 h10]
        rw [ih rest (acc ++ [ch]) (by omega)]
        simp [nextLineCoreF, hn, h13, h10]

/-- Rust `next_line`: run the loop (`nextLineCoreF` with sufficient fuel,
see `next_line_eq_core`) on an empty buffer; a non-empty final buffer is the
line, an empty one is "no more lines". Paired with the remaining bytes. -/
def next_line (bs : List Nat) : Option (List Nat) × List Nat :=
  match nextLineCoreF (bs.length + 1) bs [] with
  | (buf, rest) => (if buf = [] then none else some buf, rest)

/-- The function `next_line` is the `while let` loop run on an empty buffer. -/
theorem next_line_eq_core (bs : List Nat) :
    next_line bs =
      ((fun p => (if p.1 = [] then none else some p.1, p.2)) (nextLineCore bs [])) := by
  rw [next_line, nextLineCore_eq_fuel (bs.length + 1) bs [] (by omega)]

theorem nextLineCore_len (bs acc : List Nat) :
    (nextLineCore bs acc).2.length ≤ bs.length ∧
      ((nextLineCore bs acc).1 = acc ∨ (nextLineCore bs acc).2.length < bs.length) := by
  induction bs, acc using nextLineCore.induct with
  | case1 bs acc rest h =>
    rw [nextLineCore_none bs acc rest h]
    have := next_snd_le bs
    rw [h] at this
    exact ⟨this, Or.inl rfl⟩
  | case2 bs acc rest rest2 h h2 =>
    rw [nextLineCore_cr_lf bs acc rest rest2 h h2]
    have ha : rest.length < bs.length := by
      have := next_fst_some bs 13 (by rw [h]); rwa [h] at this
    have hb : rest2.length ≤ rest.length := by
      have := next_snd_le rest; rwa [h2] at this
    exact ⟨by simp; omega, Or.inl rfl⟩
  | case3 bs acc rest la rest2 h2 hla h ih =>
    rw [nextLineCore_cr_other bs acc rest (some la) rest2 h h2 (by simp [hla])]
    have ha : rest.length < bs.length := by
      have := next_fst_some bs 13 (by rw [h]); rwa [h] at this
    have hb : rest2.length < rest.length := by
      have := next_fst_some rest la (by rw [h2]); rwa [h2] at this
    exact ⟨by omega, Or.inr (by omega)⟩
  | case4 bs acc rest rest2 h2 h ih =>
    rw [nextLineCore_cr_other bs acc rest none rest2 h h2 (by simp)]
    have ha : rest.length < bs.length := by
      have := next_fst_some bs 13 (by rw [h]); rwa [h] at this
    have hb : rest2.length ≤ rest.length := by
      have := next_snd_le rest; rwa [h2] at this
    exact ⟨by omega, Or.inr (by omega)⟩
  | case5 bs acc rest h h13 =>
    rw [nextLineCore_lf bs acc rest h]
    have ha : rest.length < bs.length := by
      have := next_fst_some bs 10 (by rw [h]); rwa [h] at this
    exact ⟨by simp; omega, Or.inr (by simp; omega)⟩
  | case6 bs acc ch rest h h13 h10 ih =>
    rw [nextLineCore_char bs acc ch rest h h13 h10]
    have ha : rest.length < bs.length := by
      have := next_fst_some bs ch (by rw [h]); rwa [h] at this
    exact ⟨by omega, Or.inr (by omega)⟩

theorem next_line_snd_le (bs : List Nat) : (next_line bs).2.length ≤ bs.length := by
  rw [next_line_eq_core bs]
  exact (nextLineCore_len bs []).1

theorem next_line_fst_some (bs : List Nat) (l : List Nat)
    (h : (next_line bs).1 = some l) : (next_line bs).2.length < bs.length := by
  rw [next_line_eq_core bs] at h ⊢
  rcases nextLineCore_len bs [] with ⟨h1, h2 | h2⟩
  · simp [h2] at h
  · exact h2

/-- Rust `lines`: the `std::iter::from_fn(move || self.next_line())` view of the
reader, as the list it unfolds to — `next_line` is invoked repeatedly, each
produced line is emitted, and the first "no more lines" ends the sequence. -/
def lines (bs : List Nat) : List (List Nat) :=
  match h : next_line bs with
  | (some l, rest) => l :: lines rest
  | (none, _) => []
termination_by bs.length
decreasing_by
  have := next_line_fst_some bs l (by rw [h])
  rwa [h] at this

theorem lines_some (bs : List Nat) (l rest : List Nat)
    (h : next_line bs = (some l, rest)) : lines bs = l :: lines rest := by
  rw [lines.eq_def, h]

theorem lines_none (bs : List Nat) (rest : List Nat)
    (h : next_line bs = (none, rest)) : lines bs = [] := by
  rw [lines.eq_def, h]

/-- Modelled from the spec: "repeated manual `next_line()` calls on an
equivalent source" — call `next_line` over and over, collecting each produced
line, stopping the first time it returns "no more lines". The explicit
`fuel` bounds the number of calls; any `fuel > bs.length` is enough
(theorem `lines_eq_collect`). -/
def collectLines : Nat → List Nat → List (List Nat)
  | 0, _ => []
  | fuel + 1, bs =>
    match next_line bs with
    | (some l, rest) => l :: collectLines fuel rest
    | (none, _) => []

theorem lines_eq_collect (fuel : Nat) (bs : List Nat) (h : bs.length < fuel) :
    lines bs = collectLines fuel bs := by
  induction fuel generalizing bs with
  | zero => omega
  | succ fuel ih =>
    rcases hn : next_line bs with ⟨o, rest⟩
    rcases o with _ | l
    · rw [lines_none bs rest hn]
      simp [collectLines, hn]
    · have hlt : rest.length < bs.length := by
        have := next_line_fst_some bs l (by rw [hn]); rwa [hn] at this
      rw [lines_some bs l rest hn]
      simp only [collectLines, hn]
      rw [ih rest (by omega)]

/-- The valid UTF-8 encoding (1, 2, 3 or 4 bytes) of a Unicode scalar value:
the lead byte carries the length marker and the high bits, each continuation
byte carries `10` plus six payload bits (RFC 3629). -/
def utf8Encode (c : Nat) : List Nat :=
  if c < 0x80 then [c]
  else if c < 0x800 then
    [0xC0 + c / 64, 0x80 + c % 64]
  else if c < 0x10000 then
    [0xE0 + c / 4096, 0x80 + c / 64 % 64, 0x80 + c % 64]
  else
    [0xF0 + c / 262144, 0x80 + c / 4096 % 64, 0x80 + c / 64 % 64, 0x80 + c % 64]

theorem ascii_byte : ∀ c, c < 0x80 → is_ascii c = true := by decide

theorem lead2_byte : ∀ a, a < 0x20 →
    is_ascii (0xC0 + a) = false ∧ hi (0xC0 + a) 3 = 0xC0 ∧ lo (0xC0 + a) 5 = a := by decide

theorem cont_byte : ∀ b, b < 0x40 →
    starts_with_10 (0x80 + b) = true ∧ lo (0x80 + b) 6 = b := by decide

theorem lead3_byte : ∀ a, a < 0x10 →
    is_ascii (0xE0 + a) = false ∧ hi (0xE0 + a) 3 = 0xE0 ∧
      hi (0xE0 + a) 4 = 0xE0 ∧ lo (0xE0 + a) 4 = a := by decide

theorem lead4_byte : ∀ a, a < 8 →
    is_ascii (0xF0 + a) = false ∧ hi (0xF0 + a) 3 = 0xE0 ∧
      hi (0xF0 + a) 4 = 0xF0 ∧ hi (0xF0 + a) 5 = 0xF0 ∧ lo (0xF0 + a) 3 = a := by decide

theorem mul_or_eq (x b k : Nat) (hb : b < 2 ^ k) : x * 2 ^ k ||| b = x * 2 ^ k + b := by
  rw [Nat.mul_comm x (2 ^ k)]
  exact (Nat.mul_add_lt_is_or hb x).symm

theorem shift_or_eq (x b k : Nat) (hb : b < 2 ^ k) : x <<< k ||| b = x * 2 ^ k + b := by
  rw [Nat.shiftLeft_eq]
  exact mul_or_eq x b k hb

set_option maxRecDepth 4096 in
theorem lead2_any : ∀ f, f < 256 → hi f 3 = 0xC0 → is_ascii f = false := by decide

set_option maxRecDepth 4096 in
theorem lead3_any : ∀ f, f < 256 → hi f 4 = 0xE0 →
    is_ascii f = false ∧ hi f 3 ≠ 0xC0 := by decide

set_option maxRecDepth 4096 in
theorem lead4_any : ∀ f, f < 256 → hi f 5 = 0xF0 →
    is_ascii f = false ∧ hi f 3 ≠ 0xC0 ∧ hi f 4 ≠ 0xE0 := by decide

/-!
## The claims
-/

/-- C1: for every byte sequence that is the valid UTF-8 encoding (1, 2, 3, or
4 bytes) of a Unicode scalar value `c`, `next` on a source holding exactly
those bytes returns `some c`, and the immediately following call (on the
now-empty source) returns `none`. -/
theorem decoded_roundtrip (c : Nat) (h : IsUnicodeScalar c) :
    next (utf8Encode c) = (some c, []) ∧ next [] = (none, []) := by
  refine ⟨?_, rfl⟩
  by_cases h1 : c < 0x80
  · rw [utf8Encode, if_pos h1]
    simp only [next, ascii_byte c h1, if_pos, char_from_u32, h]
  by_cases h2 : c < 0x800
  · rw [utf8Encode, if_neg h1, if_pos h2]
    obtain ⟨e1, e2, e3⟩ := lead2_byte (c / 64) (by omega)
    obtain ⟨f1, f2⟩ := cont_byte (c % 64) (by omega)
    simp only [next, e1, Bool.false_eq_true, if_false, is_two_bytes, e2, f1,
      Bool.and_true, beq_self_eq_true, if_true, assemble2, e3, f2]
    rw [shift_or_eq _ _ 6 (by omega)]
    have hc : c / 64 * 2 ^ 6 + c % 64 = c := by
      have : (2 : Nat) ^ 6 = 64 := by norm_num
      omega
    rw [hc, char_from_u32, if_pos h]
  by_cases h3 : c < 0x10000
  · rw [utf8Encode, if_neg h1, if_neg h2, if_pos h3]
    obtain ⟨e1, e2, e3, e4⟩ := lead3_byte (c / 4096) (by omega)
    obtain ⟨f1, f2⟩ := cont_byte (c / 64 % 64) (by omega)
    obtain ⟨g1, g2⟩ := cont_byte (c % 64) (by omega)
    simp only [next, e1, Bool.false_eq_true, if_false, is_two_bytes, e2,
      is_three_bytes, e3, f1, g1, Bool.and_true, beq_self_eq_true, if_true,
      assemble3, e4, f2, g2]
    norm_num
    rw [Nat.shiftLeft_eq, Nat.shiftLeft_eq]
    have hb : c / 64 % 64 * 2 ^ 6 < 2 ^ 12 := by
      have : (2 : Nat) ^ 6 = 64 := by norm_num
      have : (2 : Nat) ^ 12 = 4096 := by norm_num
      omega
    rw [mul_or_eq _ _ 12 hb]
    have hsplit : c / 4096 * 2 ^ 12 + c / 64 % 64 * 2 ^ 6 =
        (c / 4096 * 2 ^ 6 + c / 64 % 64) * 2 ^ 6 := by ring
    rw [hsplit, mul_or_eq _ _ 6 (by omega)]
    have hc : (c / 4096 * 2 ^ 6 + c / 64 % 64) * 2 ^ 6 + c % 64 = c := by
      have : (2 : Nat) ^ 6 = 64 := by norm_num
      omega
    rw [hc, char_from_u32, if_pos h]
  · rw [utf8Encode, if_neg h1, if_neg h2, if_neg h3]
    obtain ⟨e1, e2, e3, e4, e5⟩ :=
      lead4_byte (c / 262144) (by rcases h with ⟨h', hle⟩; omega)
    obtain ⟨f1, f2⟩ := cont_byte (c / 4096 % 64) (by omega)
    obtain ⟨g1, g2⟩ := cont_byte (c / 64 % 64) (by omega)
    obtain ⟨k1, k2⟩ := cont_byte (c % 64) (by omega)
    simp only [next, e1, Bool.false_eq_true, if_false, is_two_bytes, e2,
      is_three_bytes, e3, is_four_bytes, e4, f1, g1, k1, Bool.and_true,
      beq_self_eq_true, if_true, assemble4, e5, f2, g2, k2]
    norm_num
    rw [Nat.shiftLeft_eq, Nat.shiftLeft_eq, Nat.shiftLeft_eq]
    have p6 : (2 : Nat) ^ 6 = 64 := by norm_num
    have p12 : (2 : Nat) ^ 12 = 4096 := by norm_num
    have p18 : (2 : Nat) ^ 18 = 262144 := by norm_num
    rw [mul_or_eq _ _ 18 (by omega)]
    have hs1 : c / 262144 * 2 ^ 18 + c / 4096 % 64 * 2 ^ 12 =
        (c / 262144 * 2 ^ 6 + c / 4096 % 64) * 2 ^ 12 := by ring
    rw [hs1, mul_or_eq _ _ 12 (by omega)]
    have hs2 : (c / 262144 * 2 ^ 6 + c / 4096 % 64) * 2 ^ 12 + c / 64 % 64 * 2 ^ 6 =
        ((c / 262144 * 2 ^ 6 + c / 4096 % 64) * 2 ^ 6 + c / 64 % 64) * 2 ^ 6 := by ring
    rw [hs2, mul_or_eq _ _ 6 (by omega)]
    have hc : ((c / 262144 * 2 ^ 6 + c / 4096 % 64) * 2 ^ 6 + c / 64 % 64) * 2 ^ 6
        + c % 64 = c := by omega
    rw [hc, char_from_u32, if_pos h]

theorem decoded_roundtrip_witness :
    IsUnicodeScalar 0x2713 ∧
      (next (utf8Encode 0x2713) = (some 0x2713, []) ∧ next [] = (none, [])) :=
  ⟨by decide, decoded_roundtrip 0x2713 (by decide)⟩

/-- C2: whenever the pulled bytes match a 2-, 3-, or 4-byte UTF-8 shape but
the assembled value is not a legal Unicode scalar value (surrogate range or
above `0x10FFFF`), `next` returns `none` rather than a scalar, the matched
bytes having been consumed. -/
theorem invalid_scalar_rejected (f s t u : Nat) (rest : List Nat)
    (hf : f < 256) (hs : s < 256) (ht : t < 256) (hu : u < 256) :
    (is_two_bytes f s = true → ¬ IsUnicodeScalar (assemble2 f s) →
      next (f :: s :: rest) = (none, rest)) ∧
    (is_three_bytes f s t = true → ¬ IsUnicodeScalar (assemble3 f s t) →
      next (f :: s :: t :: rest) = (none, rest)) ∧
    (is_four_bytes f s t u = true → ¬ IsUnicodeScalar (assemble4 f s t u) →
      next (f :: s :: t :: u :: rest) = (none, rest)) := by
  refine ⟨fun hshape hbad => ?_, fun hshape hbad => ?_, fun hshape hbad => ?_⟩
  · have hlead : hi f 3 = 0xC0 := by
      have := hshape
      simp [is_two_bytes] at this
      exact this.1
    have ha := lead2_any f hf hlead
    simp only [next, ha, Bool.false_eq_true, if_false, hshape, if_true,
      char_from_u32, if_neg hbad]
  · have hlead : hi f 4 = 0xE0 := by
      have := hshape
      simp [is_three_bytes] at this
      exact this.1.1
    obtain ⟨ha, h2⟩ := lead3_any f hf hlead
    have htwo : is_two_bytes f s = false := by
      simp [is_two_bytes, h2]
    simp only [next, ha, Bool.false_eq_true, if_false, htwo, hshape, if_true,
      char_from_u32, if_neg hbad]
  · have hlead : hi f 5 = 0xF0 := by
      have := hshape
      simp [is_four_bytes] at this
      exact this.1.1.1
    obtain ⟨ha, h2, h3⟩ := lead4_any f hf hlead
    have htwo : is_two_bytes f s = false := by
      simp [is_two_bytes, h2]
    have hthree : is_three_bytes f s t = false := by
      simp [is_three_bytes, h3]
    simp only [next, ha, Bool.false_eq_true, if_false, htwo, hthree, hshape,
      if_true, char_from_u32, if_neg hbad]

theorem invalid_scalar_rejected_witness :
    (is_three_bytes 0xED 0xA0 0x80 = true ∧ ¬ IsUnicodeScalar (assemble3 0xED 0xA0 0x80)) ∧
      next [0xED, 0xA0, 0x80] = (none, []) :=
  ⟨⟨by decide, by decide⟩,
    (invalid_scalar_rejected 0xED 0xA0 0x80 0x80 [] (by decide) (by decide) (by decide)
      (by decide)).2.1 (by decide) (by decide)⟩

/-- C3 counterexample: for the input bytes of `"a\rb"`, `next_line` does NOT
return the line `"a"`: the original `'\r'` is pushed onto the buffer when the
look-ahead is not `'\n'`, so the produced line is `"a\r"`. -/
theorem lone_cr_counterexample :
    (next_line [0x61, 0x0D, 0x62]).1 ≠ some [0x61] ∧
      (next_line [0x61, 0x0D, 0x62]).1 = some [0x61, 0x0D] := by decide

/-- C3 amended: for the input bytes of `"a\rb"`, `next_line` returns exactly
the line `"a\r"` — the look-ahead scalar `'b'` is consumed and discarded, the
`'\r'` is appended to the buffer, and no terminator is found, so the loop
ends leaving buffer `"a\r"` — and the immediately following `next_line` call
returns `none`. -/
theorem lone_cr_amended :
    next_line [0x61, 0x0D, 0x62] = (some [0x61, 0x0D], []) ∧
      next_line [] = (none, []) := by decide

/-- C4: whenever the loop of `next_line` reads a `'\r'` and the look-ahead
scalar pulled immediately after it is not `'\n'`, the loop continues with
exactly the original `'\r'` appended to the buffer, from the position after
the look-ahead pull: the look-ahead scalar is discarded and never appended,
even though it was consumed from the decoder. -/
theorem cr_lookahead_discarded (bs acc rest rest2 : List Nat) (la : Nat)
    (h : next bs = (some 13, rest)) (h2 : next rest = (some la, rest2))
    (hla : la ≠ 10) :
    nextLineCore bs acc = nextLineCore rest2 (acc ++ [13]) :=
  nextLineCore_cr_other bs acc rest (some la) rest2 h h2 (by simp [hla])

theorem cr_lookahead_discarded_witness :
    next [13, 97] = (some 13, [97]) ∧
      nextLineCore [13, 97] [] = nextLineCore [] [13] :=
  ⟨by decide,
    cr_lookahead_discarded [13, 97] [] [97] [] 97 (by decide) (by decide) (by decide)⟩

/-- C5 counterexample: `next` on `FF 41 41 41 41` returns `none` (malformed
lead byte), yet the immediately following call on the same decoder returns
`some 'A'` — a `none` outcome does not permanently exhaust the decoder. -/
theorem exhaustion_counterexample :
    (next [0xFF, 0x41, 0x41, 0x41, 0x41]).1 = none ∧
      next (next [0xFF, 0x41, 0x41, 0x41, 0x41]).2 = (some 0x41, []) := by decide

/-- C5 amended: once a call to `next` returns `none` with the byte source
exhausted (no bytes remaining), every subsequent `next` returns `none`, every
subsequent `next_line` returns `none`, and `lines` is empty; a `none` caused
by a malformed sequence with bytes still remaining does not permanently
exhaust the decoder (`exhaustion_counterexample`). -/
theorem exhaustion_amended (bs : List Nat)
    (h1 : (next bs).1 = none) (h2 : (next bs).2 = []) :
    next (next bs).2 = (none, []) ∧ next_line (next bs).2 = (none, []) ∧
      lines (next bs).2 = [] := by
  rw [h2]
  exact ⟨rfl, by decide, lines_none [] [] (by decide)⟩

theorem exhaustion_amended_witness :
    ((next [0x80]).1 = none ∧ (next [0x80]).2 = []) ∧
      next (next [0x80]).2 = (none, []) := by
  refine ⟨⟨by decide, by decide⟩, ?_⟩
  exact (exhaustion_amended [0x80] (by decide) (by decide)).1

/-- C6: for an input consisting of exactly the lead byte of a 2-, 3-, or
4-byte UTF-8 sequence and nothing more, the first call to `next` returns
`none` — never a partial or corrupted scalar value. -/
theorem truncated_lead_none (f : Nat) (hf : f < 256)
    (h : hi f 3 = 0xC0 ∨ hi f 4 = 0xE0 ∨ hi f 5 = 0xF0) :
    next [f] = (none, []) := by
  have ha : is_ascii f = false := by
    rcases h with h | h | h
    · exact lead2_any f hf h
    · exact (lead3_any f hf h).1
    · exact (lead4_any f hf h).1
  simp [next, ha]

theorem truncated_lead_none_witness :
    (hi 0xC2 3 = 0xC0 ∨ hi 0xC2 4 = 0xE0 ∨ hi 0xC2 5 = 0xF0) ∧
      next [0xC2] = (none, []) :=
  ⟨Or.inl (by decide), truncated_lead_none 0xC2 (by decide) (Or.inl (by decide))⟩

/-- C7: the inputs `"hi\nhow\r\nare\nyou?\n"` and `"hi\nhow\r\nare\nyou?"`
(no trailing terminator) both yield exactly the line sequence
`["hi", "how", "are", "you?"]`: a trailing newline produces no spurious empty
final line, and input ending without a terminator still returns the last
partial text as a final line. -/
theorem line_sequence_examples :
    lines [104, 105, 10, 104, 111, 119, 13, 10, 97, 114, 101, 10, 121, 111, 117, 63, 10] =
        [[104, 105], [104, 111, 119], [97, 114, 101], [121, 111, 117, 63]] ∧
      lines [104, 105, 10, 104, 111, 119, 13, 10, 97, 114, 101, 10, 121, 111, 117, 63] =
        [[104, 105], [104, 111, 119], [97, 114, 101], [121, 111, 117, 63]] := by
  constructor
  · rw [lines_eq_collect 18 _ (by decide)]
    decide
  · rw [lines_eq_collect 17 _ (by decide)]
    decide

/-- C8: for every byte source, the sequence produced by the `lines()`
iterator equals the sequence produced by repeatedly calling `next_line` on an
equivalent source until it first returns "no more lines"
(`collectLines`, with any sufficient call budget). -/
theorem lines_eq_repeated_next_line (bs : List Nat) (fuel : Nat)
    (h : bs.length < fuel) : lines bs = collectLines fuel bs :=
  lines_eq_collect fuel bs h

theorem lines_eq_repeated_next_line_witness :
    ([104, 10] : List Nat).length < 3 ∧ lines [104, 10] = collectLines 3 [104, 10] :=
  ⟨by decide, lines_eq_repeated_next_line [104, 10] 3 (by decide)⟩

/-- C9: every call to `next` pulls at most 4 bytes and advances the source
forward by exactly the number of bytes it pulled: the remaining source is a
`drop` of the original — no byte is ever pushed back or re-read, and bytes
consumed by a failed classification are permanently discarded. -/
theorem cursor_advances_forward (bs : List Nat) :
    ∃ k, k ≤ 4 ∧ (next bs).2 = bs.drop k := by
  rcases bs with _ | ⟨f, _ | ⟨s, _ | ⟨t, _ | ⟨u, rest⟩⟩⟩⟩ <;>
    simp only [next] <;> (try split_ifs) <;>
    first
      | exact ⟨0, by omega, rfl⟩
      | exact ⟨1, by omega, rfl⟩
      | exact ⟨2, by omega, rfl⟩
      | exact ⟨3, by omega, rfl⟩
      | exact ⟨4, by omega, rfl⟩

/-- C10: `next_line` never returns `some` of an empty line — whenever the
buffer is empty when the loop stops it returns `none` instead — so a line
terminator at the very start of the remaining input (with more data after
it) makes `next_line` return `none` and terminates the `lines` sequence
early even though undecoded input remains. -/
theorem no_empty_lines (bs l : List Nat) (h : (next_line bs).1 = some l) :
    l ≠ [] ∧ next_line [10, 97] = (none, [97]) ∧ lines [10, 97] = [] := by
  refine ⟨?_, by decide, lines_none [10, 97] [97] (by decide)⟩
  rw [next_line] at h
  rcases hc : nextLineCoreF ([] ++ bs).length.succ bs [] with ⟨buf, r⟩
  rw [show bs.length + 1 = ([] ++ bs).length.succ by simp, hc] at h
  by_cases hb : buf = []
  · simp [hb] at h
  · simp only [if_neg hb] at h
    simp at h
    exact h ▸ hb

theorem no_empty_lines_witness :
    (next_line [104, 10]).1 = some [104] ∧
      ([104] ≠ [] ∧ next_line [10, 97] = (none, [97]) ∧ lines [10, 97] = []) :=
  ⟨by decide, no_empty_lines [104, 10] [104] (by decide)⟩

end StringStream
